import Mathlib

/-!
Verification of the label-text normalization and field-extraction engine of
src/app.py (KVProductionGlassLine).  The Python functions `repair_prefix`,
`similarity`, `extract_type_components`, `extract_size`, `extract_tag` and
`extract_po` are shallowly embedded as executable Lean functions over
`List Char` (with `String` wrappers keeping the source names).  The regular
expressions of the source are modelled explicitly: `\b` word boundaries,
greedy quantifiers and Python `re.sub` left-to-right non-overlapping
substitution.  `\w` and `\s` are modelled over the ASCII range that the
label vocabulary uses.
-/

namespace GlassLine

/-- Python `\s` (ASCII whitespace, as used by `re` and `str.strip`). -/
def pySpace (c : Char) : Bool :=
  c = ' ' || c = '\t' || c = '\n' || c = '\x0d' || c = '\x0c' || c = '\x0b'

/-- Python `\w` (word character) over ASCII: alphanumeric or underscore. -/
def isWord (c : Char) : Bool :=
  c.isAlphanum || c = '_'

/-- The character class of the prefix-repair patterns: dash, slash, colon,
comma, underscore, space. -/
def isCls (c : Char) : Bool :=
  c = '-' || c = '/' || c = ':' || c = ',' || c = '_' || c = ' '

/-- Strip ASCII whitespace from both ends (Python `str.strip()`). -/
def trim (l : List Char) : List Char :=
  ((l.dropWhile pySpace).reverse.dropWhile pySpace).reverse

/-- One pass of `re.sub(r"\s+", " ", t)`: every maximal whitespace run
becomes a single space.  The Boolean records whether we are inside a run. -/
def collapseAux : Bool → List Char → List Char
  | _, [] => []
  | inWs, c :: rest =>
    if pySpace c then
      if inWs then collapseAux true rest else ' ' :: collapseAux true rest
    else c :: collapseAux false rest

def collapseWS (l : List Char) : List Char := collapseAux false l

/-- Python `str.split()` (split on whitespace runs, dropping empties). -/
def wordsAux : List Char → List Char → List (List Char)
  | cur, [] => if cur.isEmpty then [] else [cur.reverse]
  | cur, c :: rest =>
    if pySpace c then
      if cur.isEmpty then wordsAux [] rest else cur.reverse :: wordsAux [] rest
    else wordsAux (c :: cur) rest

def words (l : List Char) : List (List Char) := wordsAux [] l

/-- Python `str.split("\n")` (keeps empty lines; `"" ↦ [""]`). -/
def splitNlAux : List Char → List Char → List (List Char)
  | cur, [] => [cur.reverse]
  | cur, c :: rest =>
    if c = '\n' then cur.reverse :: splitNlAux [] rest else splitNlAux (c :: cur) rest

def splitNl (l : List Char) : List (List Char) := splitNlAux [] l

/-- Python substring containment (`needle in hay`). -/
def containsSub (hay needle : List Char) : Bool :=
  match hay with
  | [] => needle.isEmpty
  | _ :: rest => needle.isPrefixOf hay || containsSub rest needle

/-- Python `s.replace(old, "", 1)`: delete the first occurrence of `old`. -/
def replaceFirst (old : List Char) : List Char → List Char
  | [] => []
  | c :: rest =>
    if old.isPrefixOf (c :: rest) then (c :: rest).drop old.length
    else c :: replaceFirst old rest

/-! ### The Prefix Repairer (`repair_prefix`, src/app.py lines 86-95)

Each of the twelve patterns of the Python dict has the shape
`\b d₁ SEP d₂ \b` where `SEP` is `\s*`, nothing, or the one-or-more
repetition of the dash/slash/colon/comma/underscore/space class, and the
replacement is always `d₁ . d₂`.  `re.sub` scans left to right, replacing
non-overlapping matches; the `\b` context of later matches refers to the
original characters.  -/

inductive Sep where
  | ws : Sep
  | noSep : Sep
  | cls : Sep
deriving DecidableEq

structure Pat where
  d1 : Char
  sep : Sep
  d2 : Char
deriving DecidableEq

/-- Consume the separator part of a pattern (greedy; the greedy run is the
only candidate because a separator character can never equal `d₂`). -/
def sepSplit : Sep → List Char → Option (List Char)
  | .ws, l => some (l.dropWhile pySpace)
  | .noSep, l => some l
  | .cls, [] => none
  | .cls, c :: rest => if isCls c then some (rest.dropWhile isCls) else none

/-- Trailing `\b` after a word character: next char absent or non-word. -/
def boundaryOk : List Char → Bool
  | [] => true
  | c :: _ => !isWord c

/-- Try to match `\b d₁ SEP d₂ \b` at the head of `l`; `pw` says whether the
preceding character is a word character (so the leading `\b` fails).
Returns the unconsumed remainder on success. -/
def matchAt (p : Pat) (pw : Bool) (l : List Char) : Option (List Char) :=
  match pw, l with
  | true, _ => none
  | false, [] => none
  | false, c :: rest =>
    if c = p.d1 then
      match sepSplit p.sep rest with
      | some (c2 :: r) => if c2 = p.d2 ∧ boundaryOk r then some r else none
      | _ => none
    else none

/-- Worker for one `re.sub` pass.  `k` is a pending skip count: after a
match we emit the replacement `d₁.d₂` and skip the rest of the matched
chunk (its last character is `d₂`, a word character, hence `pw := true`). -/
def subGo (p : Pat) : Nat → Bool → List Char → List Char
  | _, _, [] => []
  | k + 1, pw, _ :: rest => subGo p k pw rest
  | 0, pw, c :: rest =>
    match matchAt p pw (c :: rest) with
    | some rest' => p.d1 :: '.' :: p.d2 :: subGo p (rest.length - rest'.length) true rest
    | none => c :: subGo p 0 (isWord c) rest

/-- One full `re.sub(pat, rep, t)` pass over a string. -/
def subP (p : Pat) (l : List Char) : List Char := subGo p 0 false l

/-- The twelve patterns, in the order of the Python dict (insertion order). -/
def pats : List Pat :=
  [⟨'3', .ws, '9'⟩, ⟨'3', .noSep, '9'⟩, ⟨'3', .cls, '9'⟩,
   ⟨'3', .ws, '1'⟩, ⟨'3', .noSep, '1'⟩, ⟨'3', .cls, '1'⟩,
   ⟨'4', .ws, '7'⟩, ⟨'4', .noSep, '7'⟩, ⟨'4', .cls, '7'⟩,
   ⟨'5', .ws, '7'⟩, ⟨'5', .noSep, '7'⟩, ⟨'5', .cls, '7'⟩]

def repairL (l : List Char) : List Char := pats.foldl (fun t p => subP p t) l

/-- The function repair_prefix of src/app.py: the twelve ordered rewrite passes. -/
def repair_prefix (s : String) : String := ⟨repairL s.data⟩

/-- The six digits of the boundary-safety test string `"339000"`. -/
abbrev tagL : List Char := ['3', '3', '9', '0', '0', '0']

/-- No position of `l` (scanned with running previous-is-word flag `pw`)
matches pattern `q`: the substitution pass for `q` is a no-op exactly on
such strings. -/
def cleanB (q : Pat) : Bool → List Char → Bool
  | _, [] => true
  | pw, c :: rest => (matchAt q pw (c :: rest)).isNone && cleanB q (isWord c) rest

/-! ### Suffix similarity and the tint dictionary (src/app.py 29-33, 101-104) -/

/-- The function similarity(a, b): both sides uppercased, count of positions with equal
characters over `zip` (up to the shorter length). -/
def simL (a b : List Char) : Nat :=
  (((a.map Char.toUpper).zip (b.map Char.toUpper)).filter (fun xy => xy.1 = xy.2)).length

def similarity (a b : String) : Nat := simL a.data b.data

/-- The list VALID_SUFFIXES of src/app.py, in source order. -/
def VALID_SUFFIXES : List String :=
  ["E180", "E180ESC", "Q180", "E272", "Q272",
   "E366", "Q366", "EI89", "QI89",
   "NREEDV", "MATT", "GRY", "P621", "BRZ"]

def suffixesL : List (List Char) := VALID_SUFFIXES.map String.data

def upperL (l : List Char) : List Char := l.map Char.toUpper

/-- One step of the inner dictionary loop: keep the entry with the first
strictly larger score. -/
def bestStep (up : List Char) (b : List Char × Int) (suf : List Char) : List Char × Int :=
  let sc : Int := simL up suf
  if sc > b.2 then (suf, sc) else b

/-- The inner dictionary loop for one token `up`: start from `(up, -1)` and
fold `bestStep` over the dictionary in order. -/
def bestFor (up : List Char) : List Char × Int :=
  suffixesL.foldl (bestStep up) (up, -1)

/-- One step of the outer token loop: a token overwrites `tint` whenever
its best dictionary score is at least 2. -/
def tintStep (tint p : List Char) : List Char :=
  if (bestFor (upperL p)).2 ≥ 2 then (bestFor (upperL p)).1 else tint

/-- The outer token loop (so the last qualifying token wins). -/
def tintFold (parts : List (List Char)) : List Char :=
  parts.foldl tintStep []

/-! ### Letter-splitting normalization (`re.sub(r"C\s*L\s*T", "CLT", t)`) -/

def matchCLX (third : Char) (l : List Char) : Option (List Char) :=
  match l with
  | 'C' :: r =>
    match r.dropWhile pySpace with
    | 'L' :: r2 =>
      match r2.dropWhile pySpace with
      | c :: rest2 => if c = third then some rest2 else none
      | [] => none
    | _ => none
  | _ => none

def cltGo (third : Char) : Nat → List Char → List Char
  | _, [] => []
  | k + 1, _ :: rest => cltGo third k rest
  | 0, c :: rest =>
    match matchCLX third (c :: rest) with
    | some rest2 => 'C' :: 'L' :: third :: cltGo third (rest.length - rest2.length) rest
    | none => c :: cltGo third 0 rest

def cltSub (third : Char) (l : List Char) : List Char := cltGo third 0 l

/-! ### `extract_type_components` (src/app.py 110-166) -/

/-- The lines strictly after the first line containing `cut>`
(case-insensitively); `none` when no such anchor line exists. -/
def linesAfterAnchor : List (List Char) → Option (List (List Char))
  | [] => none
  | l :: rest =>
    if containsSub (l.map Char.toLower) ("cut>".data) then some rest
    else linesAfterAnchor rest

def firstNonEmpty : List (List Char) → Option (List Char)
  | [] => none
  | l :: rest => let t := trim l; if t.isEmpty then firstNonEmpty rest else some t

/-- The stripped type line: the first non-blank line after the anchor line,
or `none` when the anchor or such a line is missing (both early returns of
the Python code). -/
def typeLineOf (raw : List Char) : Option (List Char) :=
  match linesAfterAnchor (splitNl (raw.filter (fun c => c != '\r'))) with
  | none => none
  | some after => firstNonEmpty after

/-- Prefix repair, whitespace collapse and CLT/CLA de-spacing, in source
order. -/
def normLine (tl : List Char) : List Char :=
  cltSub 'A' (cltSub 'T' (collapseWS (repairL tl)))

def partsOfLine (tl : List Char) : List (List Char) := words (normLine tl)

def partsOf (raw : List Char) : List (List Char) :=
  match typeLineOf raw with
  | none => []
  | some tl => partsOfLine tl

/-- Python `thickness = parts[0] if parts else ""`. -/
def thicknessOfLine (tl : List Char) : List Char := (partsOfLine tl).headD []

/-- The tint produced by the token loop on the normalized line. -/
def tintOfLine (tl : List Char) : List Char := tintFold (partsOfLine tl)

/-- Python `glass_type`: only when both thickness and tint are non-empty, delete
the first occurrence of each from the normalized line and strip. -/
def glassOfLine (tl : List Char) : List Char :=
  if (thicknessOfLine tl).isEmpty || (tintOfLine tl).isEmpty then []
  else trim (replaceFirst (tintOfLine tl) (replaceFirst (thicknessOfLine tl) (normLine tl)))

def extract_type_componentsL (raw : List Char) : List Char × List Char × List Char :=
  match typeLineOf raw with
  | none => ([], [], [])
  | some tl => (thicknessOfLine tl, glassOfLine tl, tintOfLine tl)

def extract_type_components (raw : String) : String × String × String :=
  let r := extract_type_componentsL raw.data
  (⟨r.1⟩, ⟨r.2.1⟩, ⟨r.2.2⟩)

/-! ### `extract_size` (src/app.py 172-201)

A small backtracking engine: a matcher returns the list of all
(consumed, remainder) splits in the priority order of Python `re`
backtracking (greedy quantifiers try longer consumptions first, the
leftmost atom backtracks last).  `re.search` = first position, first
candidate. -/

abbrev Mres := List (List Char × List Char)

def isDigit (c : Char) : Bool := c.isDigit

def pchr (f : Char → Bool) : List Char → Mres
  | [] => []
  | c :: rest => if f c then [([c], rest)] else []

def pseq (m1 m2 : List Char → Mres) : List Char → Mres :=
  fun l => (m1 l).flatMap (fun ar => (m2 ar.2).map (fun br => (ar.1 ++ br.1, br.2)))

/-- Greedy `f{lo,hi}`: candidates are the first `k` class characters, for
`k` from the maximal possible down to `lo`. -/
def prepRange (f : Char → Bool) (lo hi : Nat) : List Char → Mres :=
  fun l =>
    let top := min (l.takeWhile f).length hi
    (List.range (top + 1)).reverse.filterMap
      (fun k => if lo ≤ k then some (l.take k, l.drop k) else none)

def pplus (f : Char → Bool) : List Char → Mres :=
  fun l => prepRange f 1 (l.takeWhile f).length l

def pstar (f : Char → Bool) : List Char → Mres :=
  fun l => prepRange f 0 (l.takeWhile f).length l

def passertB : List Char → Mres := fun l => if boundaryOk l then [([], l)] else []

/-- The fraction group `\d{1,4}\s*\d+/\d+`. -/
def gFrac : List Char → Mres :=
  pseq (prepRange isDigit 1 4)
    (pseq (pstar pySpace)
      (pseq (pplus isDigit) (pseq (pchr (fun c => c = '/')) (pplus isDigit))))

/-- The whole-number group `\d{1,4}`. -/
def gWhole : List Char → Mres := prepRange isDigit 1 4

/-- The delimiter `[xX ]+`. -/
def sepXsp : List Char → Mres := pplus (fun c => c = 'x' || c = 'X' || c = ' ')

/-- The delimiter `\s*[xX]\s*`. -/
def sepX : List Char → Mres :=
  pseq (pstar pySpace) (pseq (pchr (fun c => c = 'x' || c = 'X')) (pstar pySpace))

/-- A two-group pattern `G1 SEP G2`, reporting the two group contents. -/
def mk2 (m1 msep m2 : List Char → Mres) :
    List Char → List ((List Char × List Char) × List Char) :=
  fun l =>
    (m1 l).flatMap (fun g1 =>
      (msep g1.2).flatMap (fun s =>
        (m2 s.2).map (fun g2 => ((g1.1, g2.1), g2.2))))

/-- Python `re.search`: scan positions left to right, first candidate of the first
matching position; `needB` demands a word boundary before the match (for
the one pattern with a leading `\b`). -/
def scanM (m : List Char → List ((List Char × List Char) × List Char))
    (needB : Bool) : Bool → List Char → Option (List Char × List Char)
  | _, [] => none
  | pw, c :: rest =>
    if needB && pw then scanM m needB (isWord c) rest
    else
      match (m (c :: rest)).head? with
      | some g => some g.1
      | none => scanM m needB (isWord c) rest

def sizeP1 := mk2 gFrac sepXsp gFrac
def sizeP2 := mk2 gFrac sepXsp (pseq gWhole passertB)
def sizeP3 := mk2 gWhole sepXsp gFrac
def sizeP4 := mk2 gWhole sepX gWhole
def sizeP5 := mk2 gWhole (pplus pySpace) (pseq gWhole passertB)

def fmtSize (stripGroups : Bool) (g : List Char × List Char) : List Char :=
  (if stripGroups then trim g.1 else g.1) ++ ' ' :: 'x' :: ' ' ::
    (if stripGroups then trim g.2 else g.2)

def extract_sizeL (raw : List Char) : List Char :=
  let text := collapseWS (raw.map (fun c => if c = '\n' then ' ' else c))
  match scanM sizeP1 false false text with
  | some g => fmtSize true g
  | none =>
  match scanM sizeP2 false false text with
  | some g => fmtSize true g
  | none =>
  match scanM sizeP3 false false text with
  | some g => fmtSize true g
  | none =>
  match scanM sizeP4 false false text with
  | some g => fmtSize true g
  | none =>
  match scanM sizeP5 true false text with
  | some g => fmtSize false g
  | none => []

def extract_size (raw : String) : String := ⟨extract_sizeL raw.data⟩

/-! ### `extract_tag` and `extract_po` (src/app.py 207-217) -/

/-- Match `\b\d{6}(?:[-.,]\d+)?\b` at the head of `l` (`pw` = preceding
character is a word character, so the leading `\b` fails).  The optional
group is tried greedily first; on its failure the bare six digits with the
trailing `\b` are tried, exactly as `re` backtracks. -/
def matchTagAt (pw : Bool) (l : List Char) : Option (List Char) :=
  if pw then none
  else
    let d6 := l.take 6
    if d6.length = 6 && d6.all isDigit then
      match l.drop 6 with
      | [] => some d6
      | c :: rest2 =>
        if c = '-' || c = '.' || c = ',' then
          let ds := rest2.takeWhile isDigit
          if !ds.isEmpty && boundaryOk (rest2.drop ds.length) then
            some (d6 ++ c :: ds)
          else if boundaryOk (c :: rest2) then some d6 else none
        else if boundaryOk (c :: rest2) then some d6 else none
    else none

def tagScan : Bool → List Char → Option (List Char)
  | _, [] => none
  | pw, c :: rest =>
    match matchTagAt pw (c :: rest) with
    | some m => some m
    | none => tagScan (isWord c) rest

def extract_tagL (raw : List Char) : List Char := (tagScan false raw).getD []

def extract_tag (raw : String) : String := ⟨extract_tagL raw.data⟩

/-- Match `\b\d{3,6}-\d{3}\b` at the head of `l`.  A digit run longer than
six can never match (every backtrack of `\d{3,6}` is followed by another
digit, not a dash), so the whole run's length must be between 3 and 6. -/
def matchPoAt (pw : Bool) (l : List Char) : Option (List Char) :=
  if pw then none
  else
    let ds := l.takeWhile isDigit
    if 3 ≤ ds.length && ds.length ≤ 6 then
      match l.drop ds.length with
      | '-' :: r2 =>
        let tri := r2.take 3
        if tri.length = 3 && tri.all isDigit && boundaryOk (r2.drop 3) then
          some (ds ++ '-' :: tri)
        else none
      | _ => none
    else none

def poScan : Bool → List Char → Option (List Char)
  | _, [] => none
  | pw, c :: rest =>
    match matchPoAt pw (c :: rest) with
    | some m => some m
    | none => poScan (isWord c) rest

def extract_poL (raw : List Char) : List Char := (poScan false raw).getD []

def extract_po (raw : String) : String := ⟨extract_poL raw.data⟩

/-- Whether some line of the transcript contains the anchor marker `cut>`
case-insensitively (the test of the anchor loop in
`extract_type_components`). -/
def hasAnchor (raw : String) : Bool :=
  (splitNl (raw.data.filter (fun c => c != '\r'))).any
    (fun l => containsSub (l.map Char.toLower) ("cut>".data))

/-- Written from the spec claim's words (amended): the tint is the best
dictionary entry of the last token, scanning left to right, whose best
score is at least 2; empty when no token qualifies. -/
def tintLastQualifyingSpec (parts : List (List Char)) : List Char :=
  match parts.reverse.find? (fun p => decide ((bestFor (upperL p)).2 ≥ 2)) with
  | some p => (bestFor (upperL p)).1
  | none => []

/-! ### Concrete transcripts used by the claims -/

/-- The end-to-end scenario transcript of the spec (section 8). -/
def ex_end_to_end : String :=
  "ORDER 35789-000\ncut>\n3.9 CLT Q18O\n42 5/16 x 85 7/16\nTAG 172819"

/-- A transcript whose pre-anchor work-order line holds the first
size-shaped pair. -/
def ex_wo_line : String := "WO: 10 x 20\ncut>\n3.9 CLT Q180\n42 x 85"

/-- A transcript that is one 4-digit year next to a bare integer. -/
def ex_year_line : String := "2024 15"

/-- A transcript with a work-order sentinel and a colon-delimited time. -/
def ex_wd_time_line : String := "WD-7:45 x 3"

/-- A transcript with a size pair but no anchor marker anywhere. -/
def ex_no_anchor : String := "42 x 85"

/-- A type line holding two dictionary-scoring tokens. -/
def ex_two_tints : String := "cut>\n3.9 Q180 BRZ"

/-- The two tag/PO tokens, tag first. -/
def ex_both_tokens1 : String := "172819-5 35789-000"

/-- The two tag/PO tokens, PO first. -/
def ex_both_tokens2 : String := "35789-000 172819-5"

/-- Both tag/PO tokens, preceded by an unrelated 6-digit run. -/
def ex_early_tag : String := "123456 172819-5 35789-000"

/-- The empty transcript. -/
def ex_empty : String := ""

/-- A transcript whose single type-line token scores 0 against every
dictionary entry. -/
def ex_low_score : String := "cut>\nFOO"

end GlassLine

namespace GlassLine

/-- C1 counterexample: on the end-to-end transcript the pipeline returns
glassType `"CLT Q18O"`, not the claimed `"CLT"`.  The glass-type step
deletes the canonical tint `"Q180"` from the normalized line, but the line
holds only the noisy token `"Q18O"` (letter O), so nothing is removed and
the noisy token survives inside the glass-type body. -/
theorem C1_glassType_counterexample :
    extract_type_components ex_end_to_end = ("3.9", "CLT Q18O", "Q180") ∧
    ("CLT Q18O" : String) ≠ "CLT" := by
  decide

/-- C1 amended: the pipeline on the five-line transcript returns
thickness `"3.9"`, tint `"Q180"` (corrected from the OCR noise `Q18O`),
size `"42 5/16 x 85 7/16"`, tag `"172819"` and po `"35789-000"` as
claimed, but glassType is `"CLT Q18O"` (the noisy tint token is not
removed, because only the canonical `"Q180"` is deleted and it does not
occur in the line). -/
theorem C1_pipeline_amended :
    extract_type_components ex_end_to_end = ("3.9", "CLT Q18O", "Q180") ∧
    extract_size ex_end_to_end = "42 5/16 x 85 7/16" ∧
    extract_tag ex_end_to_end = "172819" ∧
    extract_po ex_end_to_end = "35789-000" := by
  decide

/-- C3 counterexample: a line containing the work-order sentinel `WO:` and
lying before the anchor supplies the returned size.  The only occurrence
of the pair `10 x 20` is inside the line `WO: 10 x 20`, yet the extractor
returns it instead of the post-type-line `42 x 85`. -/
theorem C3_skip_counterexample :
    extract_size ex_wo_line = "10 x 20" ∧
    ("10 x 20".data <:+: "WO: 10 x 20".data) ∧
    ("10 x 20" : String) ≠ "42 x 85" := by
  decide

/-- C3 amended: `extract_size` joins the whole transcript into one line and
applies the five priority patterns to it; it performs no anchor-relative
restriction and no skipping of year / time / work-order shapes, so such
material can supply the returned size: a `WO:` line wins over a later real
size line, a bare `2024 15` year pair is returned as a size, and the `45`
inside the time string `7:45` on a `WD-` line becomes a width. -/
theorem C3_no_skipping_amended :
    extract_size ex_wo_line = "10 x 20" ∧
    extract_size ex_year_line = "2024 x 15" ∧
    extract_size ex_wd_time_line = "45 x 3" := by
  decide

theorem linesAfterAnchor_eq_none_of_all (lines : List (List Char))
    (h : ∀ l ∈ lines, containsSub (l.map Char.toLower) ("cut>".data) = false) :
    linesAfterAnchor lines = none := by
  induction lines with
  | nil => rfl
  | cons l rest ih =>
    have h1 := h l (List.mem_cons_self l rest)
    have h2 : linesAfterAnchor rest = none :=
      ih (fun x hx => h x (List.mem_cons_of_mem _ hx))
    simp [linesAfterAnchor, h1, h2]

/-- C4 counterexample: a transcript with no `cut>` anywhere still gets a
non-empty size — `extract_size` does not consult the anchor at all, while
the claim requires size to be the empty string. -/
theorem C4_size_counterexample :
    hasAnchor ex_no_anchor = false ∧
    extract_size ex_no_anchor = "42 x 85" ∧
    ("42 x 85" : String) ≠ "" := by
  decide

/-- C4 amended: without a case-insensitive `cut>` anchor, thickness,
glassType and tint are all empty (`extract_type_components` returns its
early all-empty result).  Tag and PO extraction are unaffected, as claimed
— but so is size: `extract_size` scans the whole transcript regardless of
the anchor and can return a non-empty size. -/
theorem C4_no_anchor_amended (raw : String) (h : hasAnchor raw = false) :
    extract_type_components raw = ("", "", "") := by
  have hall : ∀ l ∈ splitNl (raw.data.filter (fun c => c != '\r')),
      containsSub (l.map Char.toLower) ("cut>".data) = false := by
    simpa [hasAnchor, List.any_eq_false] using h
  have hnone : typeLineOf raw.data = none := by
    simp [typeLineOf, linesAfterAnchor_eq_none_of_all _ hall]
  simp [extract_type_components, extract_type_componentsL, hnone]

theorem C4_no_anchor_witness :
    hasAnchor ex_no_anchor = false ∧
    extract_type_components ex_no_anchor = ("", "", "") :=
  ⟨by decide, C4_no_anchor_amended ex_no_anchor (by decide)⟩

/-- C8 counterexample: a transcript containing both `"172819-5"` and
`"35789-000"` for which `extract_tag` does not return `"172819-5"` — an
earlier 6-digit run wins the first-match scan. -/
theorem C8_counterexample :
    ("172819-5".data <:+: ex_early_tag.data) ∧
    ("35789-000".data <:+: ex_early_tag.data) ∧
    extract_tag ex_early_tag = "123456" ∧
    ("123456" : String) ≠ "172819-5" := by
  decide

/-- C8 amended: the two scans are independent over the full text and the
first match of each shape wins; in particular, when the transcript
consists of exactly the two tokens (so no earlier tag-shaped or PO-shaped
match exists), tag is `"172819-5"` and po is `"35789-000"` in either
document order, and neither token is claimed by the other extractor. -/
theorem C8_first_match_amended :
    extract_tag ex_both_tokens1 = "172819-5" ∧
    extract_po ex_both_tokens1 = "35789-000" ∧
    extract_tag ex_both_tokens2 = "172819-5" ∧
    extract_po ex_both_tokens2 = "35789-000" := by
  decide

/-- C9: every extractor is a total Lean function by construction
(termination and absence of exceptions are intrinsic to the embedding);
on the empty transcript every one of the six fields is the empty string. -/
theorem C9_empty_transcript_all_empty :
    extract_type_components ex_empty = ("", "", "") ∧
    extract_size ex_empty = "" ∧
    extract_tag ex_empty = "" ∧
    extract_po ex_empty = "" := by
  decide

/-! ### Properties of the tint fold (claims C2, C5, C10) -/

theorem char_toNat_ofNat (n : Nat) (h : n < 55296) : (Char.ofNat n).toNat = n := by
  rw [Char.ofNat, dif_pos (Or.inl h)]
  rfl

theorem toUpper_idem (c : Char) : (Char.toUpper c).toUpper = c.toUpper := by
  unfold Char.toUpper
  by_cases h : Char.toNat c ≥ 97 ∧ Char.toNat c ≤ 122
  · rw [if_pos h]
    have hv : (Char.ofNat (Char.toNat c - 32)).toNat = Char.toNat c - 32 :=
      char_toNat_ofNat _ (by omega)
    rw [if_neg]
    omega
  · rw [if_neg h, if_neg h]

theorem upperL_upperL (a : List Char) : upperL (upperL a) = upperL a := by
  unfold upperL
  rw [List.map_map]
  exact List.map_congr_left (fun c _ => toUpper_idem c)

/-- The function similarity uppercases both arguments itself, so pre-uppercasing the
token (as the Python loop does) leaves its score unchanged. -/
theorem simL_upperL (a b : List Char) : simL (upperL a) b = simL a b := by
  unfold simL
  have h : (upperL a).map Char.toUpper = a.map Char.toUpper := upperL_upperL a
  rw [h]

theorem foldl_bestStep_ge (up : List Char) (l : List (List Char)) :
    ∀ acc : List Char × Int, acc.2 ≤ (l.foldl (bestStep up) acc).2 := by
  induction l with
  | nil => intro acc; exact le_refl _
  | cons x xs ih =>
    intro acc
    rw [List.foldl_cons]
    refine le_trans ?_ (ih (bestStep up acc x))
    by_cases hx : (simL up x : Int) > acc.2
    · simp only [bestStep, if_pos hx]
      exact le_of_lt hx
    · simp only [bestStep, if_neg hx]
      exact le_refl _

theorem foldl_bestStep_le (up : List Char) (l : List (List Char)) :
    ∀ acc, ∀ s ∈ l, (simL up s : Int) ≤ (l.foldl (bestStep up) acc).2 := by
  induction l with
  | nil => intro _ s hs; cases hs
  | cons x xs ih =>
    intro acc s hs
    rw [List.foldl_cons]
    rcases List.mem_cons.mp hs with rfl | hs2
    · refine le_trans ?_ (foldl_bestStep_ge up xs (bestStep up acc s))
      by_cases hx : (simL up s : Int) > acc.2
      · simp only [bestStep, if_pos hx]
        exact le_refl _
      · simp only [bestStep, if_neg hx]
        omega
    · exact ih (bestStep up acc x) s hs2

theorem foldl_bestStep_cases (up : List Char) (l : List (List Char)) :
    ∀ acc, l.foldl (bestStep up) acc = acc ∨
      ∃ s ∈ l, l.foldl (bestStep up) acc = (s, (simL up s : Int)) := by
  induction l with
  | nil => intro acc; exact Or.inl rfl
  | cons x xs ih =>
    intro acc
    rw [List.foldl_cons]
    rcases ih (bestStep up acc x) with h | ⟨s, hs, h⟩
    · by_cases hx : (simL up x : Int) > acc.2
      · refine Or.inr ⟨x, List.mem_cons_self x xs, ?_⟩
        rw [h]
        simp only [bestStep, if_pos hx]
      · refine Or.inl ?_
        rw [h]
        simp only [bestStep, if_neg hx]
    · exact Or.inr ⟨s, List.mem_cons_of_mem x hs, h⟩

theorem bestFor_cases (up : List Char) :
    bestFor up = (up, -1) ∨ ∃ s ∈ suffixesL, bestFor up = (s, (simL up s : Int)) :=
  foldl_bestStep_cases up suffixesL (up, -1)

theorem tintStep_mem (tint p : List Char) (h : tint = [] ∨ tint ∈ suffixesL) :
    tintStep tint p = [] ∨ tintStep tint p ∈ suffixesL := by
  unfold tintStep
  by_cases hb : (bestFor (upperL p)).2 ≥ 2
  · rw [if_pos hb]
    rcases bestFor_cases (upperL p) with hc | ⟨s, hs, hc⟩
    · rw [hc] at hb
      exact absurd (show ((-1 : Int) ≥ 2) from hb) (by decide)
    · rw [hc]
      exact Or.inr hs
  · rw [if_neg hb]
    exact h

theorem foldl_tintStep_mem (parts : List (List Char)) :
    ∀ acc, (acc = [] ∨ acc ∈ suffixesL) →
      (parts.foldl tintStep acc = [] ∨ parts.foldl tintStep acc ∈ suffixesL) := by
  induction parts with
  | nil => intro acc h; exact h
  | cons x xs ih =>
    intro acc h
    rw [List.foldl_cons]
    exact ih _ (tintStep_mem acc x h)

theorem mk_mem_VALID_of_mem {l : List Char} (h : l ∈ suffixesL) :
    (⟨l⟩ : String) ∈ VALID_SUFFIXES := by
  unfold suffixesL at h
  rcases List.mem_map.mp h with ⟨s, hs, rfl⟩
  exact hs

/-- C10: for every input the returned tint is either the empty string or a
character-for-character member of `VALID_SUFFIXES` — the dictionary loop
starts from score `-1`, so its first iteration always replaces the initial
noisy token with a dictionary entry, and the token loop only ever stores
such an entry. -/
theorem C10_tint_in_dictionary (raw : String) :
    (extract_type_components raw).2.2 = "" ∨
    (extract_type_components raw).2.2 ∈ VALID_SUFFIXES := by
  unfold extract_type_components
  cases htl : typeLineOf raw.data with
  | none =>
    left
    simp [extract_type_componentsL, htl]
  | some tl =>
    rcases foldl_tintStep_mem (partsOfLine tl) [] (Or.inl rfl) with h | h
    · left
      simp [extract_type_componentsL, htl, tintOfLine, tintFold, h]
    · right
      simp only [extract_type_componentsL, htl]
      exact mk_mem_VALID_of_mem h

theorem tintFold_eq_lastQualifying (parts : List (List Char)) :
    tintFold parts = tintLastQualifyingSpec parts := by
  induction parts using List.reverseRecOn with
  | nil => rfl
  | append_singleton xs p ih =>
    unfold tintFold tintLastQualifyingSpec at *
    rw [List.foldl_append, List.reverse_append]
    simp only [List.reverse_cons, List.reverse_nil, List.nil_append, List.foldl_cons,
      List.foldl_nil, List.singleton_append]
    by_cases hb : (bestFor (upperL p)).2 ≥ 2
    · rw [List.find?_cons_of_pos _ (by simpa using hb)]
      simp only [tintStep, if_pos hb]
    · rw [List.find?_cons_of_neg _ (by simpa using hb)]
      simp only [tintStep, if_neg hb]
      exact ih

/-- C2 amended: the per-token score is maximised over the dictionary (with
the first maximal entry retained), but across tokens the loop keeps the
best entry of the LAST token whose best score is at least 2 — not the
globally highest-scoring token; tint is empty when no token reaches 2. -/
theorem C2_tint_last_qualifying_amended :
    (∀ raw : String, (extract_type_components raw).2.2 =
      (match typeLineOf raw.data with
       | none => ("" : String)
       | some tl => (⟨tintLastQualifyingSpec (partsOfLine tl)⟩ : String))) ∧
    (∀ up : List Char, ∀ s ∈ suffixesL, (simL up s : Int) ≤ (bestFor up).2) := by
  constructor
  · intro raw
    cases htl : typeLineOf raw.data with
    | none => simp [extract_type_components, extract_type_componentsL, htl]
    | some tl =>
      simp [extract_type_components, extract_type_componentsL, htl, tintOfLine,
        tintFold_eq_lastQualifying]
  · intro up s hs
    exact foldl_bestStep_le up suffixesL (up, -1) s hs

theorem foldl_tintStep_id :
    ∀ parts : List (List Char), (∀ p ∈ parts, (bestFor (upperL p)).2 < 2) →
      ∀ acc, parts.foldl tintStep acc = acc := by
  intro parts
  induction parts with
  | nil => intro _ acc; rfl
  | cons x xs ih =>
    intro h acc
    rw [List.foldl_cons]
    have hx : ¬ (bestFor (upperL x)).2 ≥ 2 := by
      have := h x (List.mem_cons_self x xs)
      omega
    rw [show tintStep acc x = acc from by simp only [tintStep, if_neg hx]]
    exact ih (fun p hp => h p (List.mem_cons_of_mem x hp)) acc

/-- C5: when every token of the type line scores at most 1 against every
dictionary entry, the returned tint is empty (the threshold is 2) and the
glass-type body is left empty as well (it is only assembled when a tint
was found). -/
theorem C5_low_similarity_confirmed (raw : String)
    (h : ∀ p ∈ partsOf raw.data, ∀ s ∈ suffixesL, simL p s ≤ 1) :
    (extract_type_components raw).2.2 = "" ∧ (extract_type_components raw).2.1 = "" := by
  unfold extract_type_components
  cases htl : typeLineOf raw.data with
  | none =>
    constructor <;> simp [extract_type_componentsL, htl]
  | some tl =>
    have hparts : partsOf raw.data = partsOfLine tl := by
      simp [partsOf, htl]
    have hlow : ∀ p ∈ partsOfLine tl, (bestFor (upperL p)).2 < 2 := by
      intro p hp
      rcases bestFor_cases (upperL p) with hc | ⟨s, hs, hc⟩
      · rw [hc]
        exact (show ((-1 : Int) < 2) from by decide)
      · rw [hc]
        have h1 : simL p s ≤ 1 := h p (hparts ▸ hp) s hs
        have h2 : simL (upperL p) s ≤ 1 := by rw [simL_upperL]; exact h1
        simp only []
        omega
    have htint : tintOfLine tl = [] := by
      unfold tintOfLine tintFold
      exact foldl_tintStep_id (partsOfLine tl) hlow []
    have hglass : glassOfLine tl = [] := by
      unfold glassOfLine
      rw [htint]
      simp
    constructor <;> simp [extract_type_componentsL, htl, htint, hglass]

theorem C5_low_similarity_witness :
    (∀ p ∈ partsOf ex_low_score.data, ∀ s ∈ suffixesL, simL p s ≤ 1) ∧
    (extract_type_components ex_low_score).2.2 = "" ∧
    (extract_type_components ex_low_score).2.1 = "" :=
  ⟨by decide, C5_low_similarity_confirmed ex_low_score (by decide)⟩

/-- C2 counterexample: on the type line `3.9 Q180 BRZ` the token `Q180`
attains the global maximum score 4 (against entry `Q180`), yet the
returned tint is `BRZ` (score 3): the loop keeps the last token whose best
score is at least 2, not the highest-scoring token. -/
theorem C2_last_token_counterexample :
    extract_type_components ex_two_tints = ("3.9", "Q180", "BRZ") ∧
    similarity ("Q180") ("Q180") = 4 ∧
    similarity ("BRZ") ("BRZ") = 3 ∧
    ("BRZ" : String) ≠ "Q180" := by
  decide

/-! ### The Prefix Repairer: boundary safety and idempotence (C6, C7)

The key structural facts: a substitution pass only rewrites chunks
`d₁ SEP d₂` flanked by word boundaries, replacing them by `d₁.d₂`; the
inserted block can never take part in a later match (the dot is neither a
separator character nor a pattern digit, and the block's digits sit next
to the dot or next to the old boundaries), so each pass clears its own
pattern and never creates a match of any of the twelve patterns. -/

theorem matchAt_pw_true (p : Pat) (l : List Char) : matchAt p true l = none := rfl

theorem matchAt_nil (p : Pat) (pw : Bool) : matchAt p pw [] = none := by
  cases pw <;> rfl

theorem matchAt_false_cons (p : Pat) (c : Char) (rest : List Char) :
    matchAt p false (c :: rest) =
      if c = p.d1 then
        match sepSplit p.sep rest with
        | some (c2 :: r) => if c2 = p.d2 ∧ boundaryOk r then some r else none
        | _ => none
      else none := rfl

theorem matchAt_head_ne {p : Pat} {c : Char} (h : ¬ c = p.d1) (pw : Bool)
    (l : List Char) : matchAt p pw (c :: l) = none := by
  cases pw with
  | true => rfl
  | false => rw [matchAt_false_cons, if_neg h]

theorem matchAt_some_pw_false {p : Pat} {pw : Bool} {l r : List Char}
    (h : matchAt p pw l = some r) : pw = false := by
  cases pw with
  | true => exact absurd h (by rw [matchAt_pw_true]; simp)
  | false => rfl

theorem sepSplit_ws (l : List Char) : sepSplit .ws l = some (l.dropWhile pySpace) := rfl

theorem sepSplit_noSep (l : List Char) : sepSplit .noSep l = some l := rfl

theorem sepSplit_cls_nil : sepSplit .cls [] = none := rfl

theorem sepSplit_cls_cons (c : Char) (rest : List Char) :
    sepSplit .cls (c :: rest) = if isCls c then some (rest.dropWhile isCls) else none := rfl

theorem mem_takeWhile_sat {P : Char → Bool} :
    ∀ {l : List Char} {x}, x ∈ l.takeWhile P → P x = true := by
  intro l
  induction l with
  | nil => intro x hx; cases hx
  | cons a l2 ih =>
    intro x hx
    by_cases ha : P a
    · rw [List.takeWhile_cons_of_pos ha] at hx
      rcases List.mem_cons.mp hx with rfl | hx2
      · exact ha
      · exact ih hx2
    · rw [List.takeWhile_cons_of_neg ha] at hx
      cases hx

/-- Decomposition of a successful match: the consumed chunk is the lead
digit, a run of separator characters (whitespace or class characters),
and the tail digit; the remainder is returned unchanged. -/
theorem matchAt_some_exists {p : Pat} {pw : Bool} {l r : List Char}
    (h : matchAt p pw l = some r) :
    ∃ seps, l = p.d1 :: (seps ++ p.d2 :: r) ∧
      ∀ x ∈ seps, (pySpace x || isCls x) = true := by
  cases l with
  | nil => rw [matchAt_nil] at h; exact absurd h (by simp)
  | cons c rest =>
    have hpw : pw = false := matchAt_some_pw_false h
    subst hpw
    rw [matchAt_false_cons] at h
    by_cases hc : c = p.d1
    · rw [if_pos hc] at h
      subst hc
      cases hss : sepSplit p.sep rest with
      | none => rw [hss] at h; simp at h
      | some l2 =>
        rw [hss] at h
        cases l2 with
        | nil => simp at h
        | cons c2 r0 =>
          simp only [] at h
          split at h
          · next hcond =>
            injection h with hr
            subst hr
            obtain ⟨hc2, -⟩ := hcond
            subst hc2
            cases hsep : p.sep with
            | ws =>
              rw [hsep, sepSplit_ws] at hss
              injection hss with hdw
              refine ⟨rest.takeWhile pySpace, ?_, ?_⟩
              · have h2 : rest.takeWhile pySpace ++ p.d2 :: r0 = rest := by
                  rw [← hdw]
                  exact List.takeWhile_append_dropWhile pySpace rest
                rw [h2]
              · intro x hx
                rw [mem_takeWhile_sat hx]
                simp
            | noSep =>
              rw [hsep, sepSplit_noSep] at hss
              injection hss with hdw
              exact ⟨[], by rw [hdw]; rfl, by intro x hx; cases hx⟩
            | cls =>
              rw [hsep] at hss
              cases rest with
              | nil => rw [sepSplit_cls_nil] at hss; exact absurd hss (by simp)
              | cons a rest0 =>
                rw [sepSplit_cls_cons] at hss
                by_cases ha : isCls a
                · rw [if_pos ha] at hss
                  injection hss with hdw
                  refine ⟨a :: rest0.takeWhile isCls, ?_, ?_⟩
                  · have h2 : rest0.takeWhile isCls ++ p.d2 :: r0 = rest0 := by
                      rw [← hdw]
                      exact List.takeWhile_append_dropWhile isCls rest0
                    simp only [List.cons_append]
                    rw [h2]
                  · intro x hx
                    rcases List.mem_cons.mp hx with rfl | hx2
                    · simp [ha]
                    · rw [mem_takeWhile_sat hx2]
                      simp
                · rw [if_neg ha] at hss
                  exact absurd hss (by simp)
          · exact absurd h (by simp)
    · rw [if_neg hc] at h
      exact absurd h (by simp)

theorem matchAt_some_length {p : Pat} {pw : Bool} {l r : List Char}
    (h : matchAt p pw l = some r) : r.length < l.length := by
  obtain ⟨seps, hl, -⟩ := matchAt_some_exists h
  rw [hl]
  simp [List.length_append]
  omega

theorem subGo_skip (p : Pat) :
    ∀ (l : List Char) (k : Nat) (pw : Bool), subGo p k pw l = subGo p 0 pw (l.drop k) := by
  intro l
  induction l with
  | nil => intro k pw; cases k <;> rfl
  | cons c rest ih =>
    intro k pw
    cases k with
    | zero => rfl
    | succ k2 =>
      show subGo p k2 pw rest = subGo p 0 pw (rest.drop k2)
      exact ih k2 pw

theorem subGo0_cons_match {p : Pat} {pw : Bool} {c : Char} {rest rest' : List Char}
    (h : matchAt p pw (c :: rest) = some rest') :
    subGo p 0 pw (c :: rest) = p.d1 :: '.' :: p.d2 :: subGo p 0 true rest' := by
  obtain ⟨seps, hl, -⟩ := matchAt_some_exists h
  have hrest : rest = (seps ++ [p.d2]) ++ rest' := by
    have := hl
    injection this with h1 h2
    rw [h2]
    simp
  have hdrop : rest.drop (rest.length - rest'.length) = rest' := by
    rw [hrest]
    have hlen : (seps ++ [p.d2] ++ rest').length - rest'.length = (seps ++ [p.d2]).length := by
      simp only [List.length_append, List.length_cons, List.length_nil]
      omega
    rw [hlen]
    exact List.drop_left _ _
  show (match matchAt p pw (c :: rest) with
    | some r2 => p.d1 :: '.' :: p.d2 :: subGo p (rest.length - r2.length) true rest
    | none => c :: subGo p 0 (isWord c) rest) = _
  rw [h]
  show p.d1 :: '.' :: p.d2 :: subGo p (rest.length - rest'.length) true rest =
    p.d1 :: '.' :: p.d2 :: subGo p 0 true rest'
  rw [subGo_skip p rest (rest.length - rest'.length) true, hdrop]

theorem subGo0_cons_nomatch {p : Pat} {pw : Bool} {c : Char} {rest : List Char}
    (h : matchAt p pw (c :: rest) = none) :
    subGo p 0 pw (c :: rest) = c :: subGo p 0 (isWord c) rest := by
  show (match matchAt p pw (c :: rest) with
    | some r2 => p.d1 :: '.' :: p.d2 :: subGo p (rest.length - r2.length) true rest
    | none => c :: subGo p 0 (isWord c) rest) = _
  rw [h]

theorem dropWhile_append_notP {P : Char → Bool} {x : Char} (hx : P x = false) :
    ∀ (u v : List Char), (u ++ x :: v).dropWhile P = u.dropWhile P ++ x :: v := by
  intro u
  induction u with
  | nil =>
    intro v
    simp [List.dropWhile_cons, hx]
  | cons a u2 ih =>
    intro v
    by_cases ha : P a
    · simp only [List.cons_append, List.dropWhile_cons_of_pos ha]
      exact ih v
    · simp [List.cons_append, List.dropWhile_cons_of_neg ha, ha]

/-- A replacement block can never begin a match: after its leading digit
comes a dot, which is not a separator character and not a pattern digit. -/
theorem matchAt_block_none (q p : Pat) (pw : Bool) (z : List Char)
    (hdot : q.d2 ≠ '.') : matchAt q pw (p.d1 :: '.' :: z) = none := by
  cases pw with
  | true => rfl
  | false =>
    by_cases hc : p.d1 = q.d1
    · rw [matchAt_false_cons, if_pos hc]
      cases hsep : q.sep with
      | ws =>
        rw [sepSplit_ws, List.dropWhile_cons_of_neg (by decide)]
        show (if ('.' : Char) = q.d2 ∧ boundaryOk z then some z else none) = none
        rw [if_neg]
        intro hcc
        exact hdot hcc.1.symm
      | noSep =>
        rw [sepSplit_noSep]
        show (if ('.' : Char) = q.d2 ∧ boundaryOk z then some z else none) = none
        rw [if_neg]
        intro hcc
        exact hdot hcc.1.symm
      | cls =>
        rw [sepSplit_cls_cons, if_neg (by decide)]
    · exact matchAt_head_ne hc false _

/-- How `sepSplit` behaves on a list with a known non-separator character
`x` in the middle: the answer is `none`, or a prefix `D` of the part
before `x` is consumed — in either case uniformly in what follows `x`. -/
theorem sepSplit_shape (s : Sep) (x : Char)
    (hx1 : pySpace x = false) (hx2 : isCls x = false) (u : List Char) :
    (∀ v, sepSplit s (u ++ x :: v) = none) ∨
    (∃ D, ∀ v, sepSplit s (u ++ x :: v) = some (D ++ x :: v)) := by
  cases s with
  | ws =>
    right
    exact ⟨u.dropWhile pySpace, fun v => by
      rw [sepSplit_ws, dropWhile_append_notP hx1]⟩
  | noSep => right; exact ⟨u, fun v => rfl⟩
  | cls =>
    cases u with
    | nil =>
      left
      intro v
      rw [List.nil_append, sepSplit_cls_cons, if_neg (by simp [hx2])]
    | cons a u2 =>
      by_cases ha : isCls a
      · right
        exact ⟨u2.dropWhile isCls, fun v => by
          rw [List.cons_append, sepSplit_cls_cons, if_pos ha, dropWhile_append_notP hx2]⟩
      · left
        intro v
        rw [List.cons_append, sepSplit_cls_cons, if_neg ha]

/-- A match attempt starting strictly before a word character `x` that is
neither a separator character nor the pattern's tail digit cannot see past
`x`: whether it fails does not depend on the text after `x`. -/
theorem matchAt_indep (q : Pat) (x : Char)
    (hx1 : pySpace x = false) (hx2 : isCls x = false) (hx3 : x ≠ q.d2)
    (c : Char) (u : List Char) (pw : Bool) (v w : List Char)
    (h : matchAt q pw ((c :: u) ++ x :: v) = none) :
    matchAt q pw ((c :: u) ++ x :: w) = none := by
  cases pw with
  | true => rfl
  | false =>
    by_cases hc : c = q.d1
    · rcases sepSplit_shape q.sep x hx1 hx2 u with hnone | ⟨D, hD⟩
      · rw [List.cons_append, matchAt_false_cons, if_pos hc, hnone w]
      · rw [List.cons_append, matchAt_false_cons, if_pos hc, hD v] at h
        rw [List.cons_append, matchAt_false_cons, if_pos hc, hD w]
        cases D with
        | nil =>
          rw [List.nil_append]
          show (if x = q.d2 ∧ boundaryOk w then some w else none) = none
          rw [if_neg]
          intro hcc
          exact hx3 hcc.1
        | cons d D2 =>
          rw [List.cons_append] at h
          rw [List.cons_append]
          have hred : ∀ t : List Char,
              (match (some (d :: (D2 ++ x :: t)) : Option (List Char)) with
                | some (c2 :: r) => if c2 = q.d2 ∧ boundaryOk r then some r else none
                | _ => none) =
              if d = q.d2 ∧ boundaryOk (D2 ++ x :: t) then some (D2 ++ x :: t) else none :=
            fun t => rfl
          rw [hred v] at h
          rw [hred w]
          have hbd : boundaryOk (D2 ++ x :: w) = boundaryOk (D2 ++ x :: v) := by
            cases D2 with
            | nil => rfl
            | cons e D3 => rfl
          by_cases hcond : d = q.d2 ∧ boundaryOk (D2 ++ x :: v) = true
          · rw [if_pos hcond] at h
            exact absurd h (by simp)
          · rw [if_neg]
            intro hcc
            refine hcond ⟨hcc.1, ?_⟩
            rw [← hbd]
            exact hcc.2
    · exact matchAt_head_ne hc false _

/-- A substitution pass never creates a match of any of the twelve pattern
shapes at a position before the region it rewrote. -/
theorem matchAt_none_sub (p q : Pat)
    (h1 : pySpace p.d1 = false) (h2 : isCls p.d1 = false)
    (h3 : p.d1 ≠ q.d2) (hdot : q.d2 ≠ '.') :
    ∀ (R u : List Char) (pw pw2 : Bool),
      matchAt q pw (u ++ R) = none → matchAt q pw (u ++ subGo p 0 pw2 R) = none := by
  intro R
  induction R with
  | nil => intro u pw pw2 h; exact h
  | cons c rest ih =>
    intro u pw pw2 h
    cases hm : matchAt p pw2 (c :: rest) with
    | some rest' =>
      rw [subGo0_cons_match hm]
      obtain ⟨seps, hl, -⟩ := matchAt_some_exists hm
      cases u with
      | nil =>
        rw [List.nil_append]
        exact matchAt_block_none q p pw _ hdot
      | cons c0 u2 =>
        have hc : c = p.d1 := by injection hl
        rw [hl] at h
        have h5 : matchAt q pw ((c0 :: u2) ++ p.d1 :: (seps ++ p.d2 :: rest')) = none := h
        exact matchAt_indep q p.d1 h1 h2 h3 c0 u2 pw _ _ h5
    | none =>
      rw [subGo0_cons_nomatch hm]
      have h5 : matchAt q pw ((u ++ [c]) ++ rest) = none := by
        rw [List.append_assoc]
        simpa using h
      have h6 := ih (u ++ [c]) pw (isWord c) h5
      rw [List.append_assoc] at h6
      simpa using h6

theorem cleanB_nil (q : Pat) (pw : Bool) : cleanB q pw [] = true := rfl

theorem cleanB_cons (q : Pat) (pw : Bool) (c : Char) (rest : List Char) :
    cleanB q pw (c :: rest) =
      ((matchAt q pw (c :: rest)).isNone && cleanB q (isWord c) rest) := rfl

theorem cleanB_suffix (q : Pat) :
    ∀ (u : List Char) (c : Char) (v : List Char) (pw : Bool),
      cleanB q pw (u ++ c :: v) = true → cleanB q (isWord c) v = true := by
  intro u
  induction u with
  | nil =>
    intro c v pw h
    rw [List.nil_append, cleanB_cons, Bool.and_eq_true] at h
    exact h.2
  | cons a u2 ih =>
    intro c v pw h
    rw [List.cons_append, cleanB_cons, Bool.and_eq_true] at h
    exact ih c v (isWord a) h.2

/-- A pass clears its own pattern: no match of `p` survives in its own
output. -/
theorem subGo_self_clean (p : Pat)
    (hw1 : isWord p.d1 = true) (hw2 : isWord p.d2 = true)
    (h1 : pySpace p.d1 = false) (h2 : isCls p.d1 = false)
    (h3 : p.d1 ≠ p.d2) (hdot : p.d2 ≠ '.') :
    ∀ (n : Nat) (l : List Char), l.length ≤ n → ∀ pw,
      cleanB p pw (subGo p 0 pw l) = true := by
  intro n
  induction n with
  | zero =>
    intro l hl pw
    have hnil : l = [] := List.length_eq_zero.mp (Nat.le_zero.mp hl)
    subst hnil
    rfl
  | succ n ih =>
    intro l hl pw
    cases l with
    | nil => rfl
    | cons c rest =>
      cases hm : matchAt p pw (c :: rest) with
      | some rest' =>
        rw [subGo0_cons_match hm]
        have hpw : pw = false := matchAt_some_pw_false hm
        subst hpw
        rw [cleanB_cons, Bool.and_eq_true]
        refine ⟨by rw [matchAt_block_none p p false _ hdot]; rfl, ?_⟩
        rw [hw1, cleanB_cons, Bool.and_eq_true]
        refine ⟨by rw [matchAt_pw_true]; rfl, ?_⟩
        rw [show isWord '.' = false from by decide, cleanB_cons, Bool.and_eq_true]
        refine ⟨by rw [matchAt_head_ne (fun hh => h3 hh.symm) false]; rfl, ?_⟩
        rw [hw2]
        have hml := matchAt_some_length hm
        rw [List.length_cons] at hml hl
        exact ih rest' (by omega) true
      | none =>
        rw [subGo0_cons_nomatch hm]
        rw [cleanB_cons, Bool.and_eq_true]
        constructor
        · have h6 : matchAt p pw (c :: subGo p 0 (isWord c) rest) = none :=
            matchAt_none_sub p p h1 h2 h3 hdot rest [c] pw (isWord c) hm
          rw [h6]
          rfl
        · rw [List.length_cons] at hl
          exact ih rest (by omega) (isWord c)

/-- A pass for `p` never introduces a match of another pattern `q`. -/
theorem subGo_preserve_clean (p q : Pat)
    (hw1 : isWord p.d1 = true) (hw2 : isWord p.d2 = true)
    (h1 : pySpace p.d1 = false) (h2 : isCls p.d1 = false)
    (h3 : p.d1 ≠ q.d2) (h5 : p.d2 ≠ q.d1) (hdot : q.d2 ≠ '.') :
    ∀ (n : Nat) (l : List Char), l.length ≤ n → ∀ pw, cleanB q pw l = true →
      cleanB q pw (subGo p 0 pw l) = true := by
  intro n
  induction n with
  | zero =>
    intro l hl pw _
    have hnil : l = [] := List.length_eq_zero.mp (Nat.le_zero.mp hl)
    subst hnil
    rfl
  | succ n ih =>
    intro l hl pw hcl
    cases l with
    | nil => rfl
    | cons c rest =>
      cases hm : matchAt p pw (c :: rest) with
      | some rest' =>
        rw [subGo0_cons_match hm]
        have hpw : pw = false := matchAt_some_pw_false hm
        subst hpw
        obtain ⟨seps, hl2, -⟩ := matchAt_some_exists hm
        rw [cleanB_cons, Bool.and_eq_true]
        refine ⟨by rw [matchAt_block_none q p false _ hdot]; rfl, ?_⟩
        rw [hw1, cleanB_cons, Bool.and_eq_true]
        refine ⟨by rw [matchAt_pw_true]; rfl, ?_⟩
        rw [show isWord '.' = false from by decide, cleanB_cons, Bool.and_eq_true]
        refine ⟨by rw [matchAt_head_ne h5 false]; rfl, ?_⟩
        rw [hw2]
        have hsuf : cleanB q (isWord p.d2) rest' = true := by
          rw [hl2] at hcl
          exact cleanB_suffix q (p.d1 :: seps) p.d2 rest' false hcl
        rw [hw2] at hsuf
        have hml := matchAt_some_length hm
        rw [List.length_cons] at hml hl
        exact ih rest' (by omega) true hsuf
      | none =>
        rw [subGo0_cons_nomatch hm]
        rw [cleanB_cons, Bool.and_eq_true] at hcl ⊢
        obtain ⟨hc1, hc2⟩ := hcl
        constructor
        · have h6 : matchAt q pw (c :: subGo p 0 (isWord c) rest) = none :=
            matchAt_none_sub p q h1 h2 h3 hdot rest [c] pw (isWord c)
              (Option.isNone_iff_eq_none.mp hc1)
          rw [h6]
          rfl
        · rw [List.length_cons] at hl
          exact ih rest (by omega) (isWord c) hc2

/-- A pass on a string with no match of its own pattern is the identity. -/
theorem subGo_id_of_clean (p : Pat) :
    ∀ (l : List Char) (pw : Bool), cleanB p pw l = true → subGo p 0 pw l = l := by
  intro l
  induction l with
  | nil => intro pw _; rfl
  | cons c rest ih =>
    intro pw h
    rw [cleanB_cons, Bool.and_eq_true] at h
    obtain ⟨hc1, hc2⟩ := h
    rw [subGo0_cons_nomatch (Option.isNone_iff_eq_none.mp hc1)]
    rw [ih (isWord c) hc2]

set_option maxHeartbeats 2000000 in
/-- The character facts used about the twelve patterns, for every ordered
pair of them. -/
theorem pats_facts : ∀ p ∈ pats, ∀ q ∈ pats,
    isWord p.d1 = true ∧ isWord p.d2 = true ∧ pySpace p.d1 = false ∧
    isCls p.d1 = false ∧ p.d1 ≠ q.d2 ∧ p.d2 ≠ q.d1 ∧ q.d2 ≠ '.' ∧
    p.d2 ≠ '3' ∧ p.d1 ≠ p.d2 := by
  decide

theorem foldl_subP_preserve (q : Pat) (hq : q ∈ pats) :
    ∀ ps : List Pat, (∀ p ∈ ps, p ∈ pats) → ∀ t, cleanB q false t = true →
      cleanB q false (ps.foldl (fun t2 p => subP p t2) t) = true := by
  intro ps
  induction ps with
  | nil => intro _ t h; exact h
  | cons p ps2 ih =>
    intro hmem t h
    rw [List.foldl_cons]
    obtain ⟨f1, f2, f3, f4, f5, f6, f7, -, -⟩ :=
      pats_facts p (hmem p (List.mem_cons_self p ps2)) q hq
    exact ih (fun r hr => hmem r (List.mem_cons_of_mem p hr)) (subP p t)
      (subGo_preserve_clean p q f1 f2 f3 f4 f5 f6 f7 t.length t (le_refl _) false h)

theorem foldl_subP_self (q : Pat) :
    ∀ ps : List Pat, (∀ p ∈ ps, p ∈ pats) → q ∈ ps → ∀ t,
      cleanB q false (ps.foldl (fun t2 p => subP p t2) t) = true := by
  intro ps
  induction ps with
  | nil => intro _ hq; cases hq
  | cons p ps2 ih =>
    intro hmem hq t
    rw [List.foldl_cons]
    rcases List.mem_cons.mp hq with rfl | hq2
    · have hp := hmem q (List.mem_cons_self q ps2)
      obtain ⟨f1, f2, f3, f4, f5, -, f7, -, -⟩ := pats_facts q hp q hp
      have hclean : cleanB q false (subP q t) = true :=
        subGo_self_clean q f1 f2 f3 f4 f5 f7 t.length t (le_refl _) false
      exact foldl_subP_preserve q hp ps2
        (fun r hr => hmem r (List.mem_cons_of_mem q hr)) (subP q t) hclean
    · exact ih (fun r hr => hmem r (List.mem_cons_of_mem p hr)) hq2 (subP p t)

theorem repairL_clean (q : Pat) (hq : q ∈ pats) (l : List Char) :
    cleanB q false (repairL l) = true :=
  foldl_subP_self q pats (fun _ hp => hp) hq l

theorem foldl_subP_id :
    ∀ ps : List Pat, ∀ t, (∀ q ∈ ps, cleanB q false t = true) →
      ps.foldl (fun t2 p => subP p t2) t = t := by
  intro ps
  induction ps with
  | nil => intro t _; rfl
  | cons p ps2 ih =>
    intro t h
    rw [List.foldl_cons]
    have hp : subP p t = t := subGo_id_of_clean p t false (h p (List.mem_cons_self p ps2))
    rw [hp]
    exact ih t (fun q hq => h q (List.mem_cons_of_mem p hq))

theorem repairL_idem (l : List Char) : repairL (repairL l) = repairL l :=
  foldl_subP_id pats (repairL l) (fun q hq => repairL_clean q hq l)

/-- C7: `repair_prefix` is idempotent on every string, and the canonical
thickness tokens are fixed points.  After one full application no pattern
matches anywhere in the result (each pass clears its own pattern and no
later pass can recreate one), so a second application is the identity. -/
theorem C7_repair_prefix_idempotent :
    (∀ s : String, repair_prefix ( repair_prefix s) = repair_prefix s) ∧
    repair_prefix ("3.9") = "3.9" ∧ repair_prefix ("3.1") = "3.1" ∧
    repair_prefix ("4.7") = "4.7" ∧ repair_prefix ("5.7") = "5.7" := by
  refine ⟨?_, by decide, by decide, by decide, by decide⟩
  intro s
  have h1 : ∀ t : String, repair_prefix t = ⟨repairL t.data⟩ := fun _ => rfl
  rw [h1 s, h1 (⟨repairL s.data⟩ : String)]
  have h2 : (⟨repairL s.data⟩ : String).data = repairL s.data := rfl
  rw [h2]
  exact congrArg String.mk (repairL_idem s.data)

theorem infix_skip {t0 : Char} {ts : List Char} :
    ∀ ys zs : List Char, (∀ x ∈ ys, x ≠ t0) → (t0 :: ts) <:+: (ys ++ zs) →
      (t0 :: ts) <:+: zs := by
  intro ys
  induction ys with
  | nil => intro zs _ h; simpa using h
  | cons y ys2 ih =>
    intro zs hy h
    rw [List.cons_append] at h
    rcases List.infix_cons_iff.mp h with hpre | hinf
    · obtain ⟨r, hr⟩ := hpre
      have h1 : t0 = y := by injection hr
      exact absurd h1.symm (hy y (List.mem_cons_self y ys2))
    · exact ih zs (fun x hx => hy x (List.mem_cons_of_mem y hx)) hinf

theorem subGo_cons_word (p : Pat) (c : Char) (hc : isWord c = true) (l : List Char) :
    subGo p 0 true (c :: l) = c :: subGo p 0 true l := by
  rw [subGo0_cons_nomatch (matchAt_pw_true p _), hc]

/-- A pass can never rewrite inside an occurrence of the six-digit run
`339000`: the leading boundary fails inside the run, a match cannot begin
at its head (the second character is neither a separator nor a tail
digit), and a match from outside cannot end inside it. -/
theorem subGo_infix_tag (p : Pat) (hp : p ∈ pats) :
    ∀ (n : Nat) (l : List Char), l.length ≤ n → ∀ pw,
      tagL <:+: l → tagL <:+: subGo p 0 pw l := by
  obtain ⟨-, -, -, -, -, -, -, f8, -⟩ := pats_facts p hp p hp
  intro n
  induction n with
  | zero =>
    intro l hl pw h
    have hnil : l = [] := List.length_eq_zero.mp (Nat.le_zero.mp hl)
    subst hnil
    simp at h
  | succ n ih =>
    intro l hl pw h
    cases l with
    | nil => simp at h
    | cons c rest =>
      cases hm : matchAt p pw (c :: rest) with
      | some rest' =>
        rw [subGo0_cons_match hm]
        obtain ⟨seps, hl2, hseps⟩ := matchAt_some_exists hm
        have hnotpre : ¬ (tagL <+: (c :: rest)) := by
          intro hpre
          obtain ⟨r, hr⟩ := hpre
          rw [hl2] at hr
          injection hr with h31 hr2
          cases seps with
          | nil =>
            rw [List.nil_append] at hr2
            have h32 : ('3' : Char) = p.d2 := by injection hr2
            exact f8 h32.symm
          | cons s ss =>
            rw [List.cons_append] at hr2
            have h32 : ('3' : Char) = s := by injection hr2
            have hs := hseps s (List.mem_cons_self s ss)
            rw [← h32] at hs
            exact absurd hs (by decide)
        have hinf : tagL <:+: rest := by
          rcases List.infix_cons_iff.mp h with hpre | hinf2
          · exact absurd hpre hnotpre
          · exact hinf2
        have hrest : rest = (seps ++ [p.d2]) ++ rest' := by
          injection hl2 with _ h2
          rw [h2]
          simp
        have hinf2 : tagL <:+: rest' := by
          rw [hrest] at hinf
          refine infix_skip (seps ++ [p.d2]) rest' ?_ hinf
          intro x hx
          rcases List.mem_append.mp hx with hx1 | hx2
          · have hs := hseps x hx1
            intro hx3
            rw [hx3] at hs
            exact absurd hs (by decide)
          · have hx4 : x = p.d2 := by simpa using hx2
            rw [hx4]
            exact f8
        have hml := matchAt_some_length hm
        rw [List.length_cons] at hml hl
        have := ih rest' (by omega) true hinf2
        exact this.trans (List.suffix_append [p.d1, '.', p.d2] _).isInfix
      | none =>
        rw [subGo0_cons_nomatch hm]
        rcases List.infix_cons_iff.mp h with hpre | hinf2
        · obtain ⟨r, hr⟩ := hpre
          injection hr with h1 h2
          subst h1
          subst h2
          rw [show isWord '3' = true from by decide]
          simp only [List.append_eq, List.cons_append, List.nil_append]
          rw [subGo_cons_word p '3' (by decide), subGo_cons_word p '9' (by decide),
            subGo_cons_word p '0' (by decide), subGo_cons_word p '0' (by decide),
            subGo_cons_word p '0' (by decide)]
          exact ⟨[], subGo p 0 true r, rfl⟩
        · rw [List.length_cons] at hl
          have := ih rest (by omega) (isWord c) hinf2
          exact this.trans (List.suffix_append [c] _).isInfix

theorem repairL_infix_tag (l : List Char) (h : tagL <:+: l) : tagL <:+: repairL l := by
  suffices hgen : ∀ ps : List Pat, (∀ p ∈ ps, p ∈ pats) → ∀ t, tagL <:+: t →
      tagL <:+: ps.foldl (fun t2 p => subP p t2) t by
    exact hgen pats (fun _ hp => hp) l h
  intro ps
  induction ps with
  | nil => intro _ t ht; exact ht
  | cons p ps2 ih =>
    intro hmem t ht
    rw [List.foldl_cons]
    exact ih (fun r hr => hmem r (List.mem_cons_of_mem p hr)) (subP p t)
      (subGo_infix_tag p (hmem p (List.mem_cons_self p ps2)) t.length t (le_refl _) false ht)

/-- C6: `repair_prefix` rewrites only whole boundary-delimited tokens.  In
particular any string containing the six-digit run `"339000"` still
contains it, unchanged, after repair: no rewrite can start at, end inside,
or cross an embedded digit run. -/
theorem C6_tag_339000_preserved (s : String) (h : "339000".data <:+: s.data) :
    "339000".data <:+: ( repair_prefix s).data := by
  have he : "339000".data = tagL := by decide
  rw [he] at h ⊢
  exact repairL_infix_tag s.data h

theorem C6_tag_339000_witness :
    ("339000".data <:+: ("39 tag 339000".data)) ∧
    ("339000".data <:+: ( repair_prefix ("39 tag 339000")).data) :=
  ⟨by decide, C6_tag_339000_preserved ("39 tag 339000") (by decide)⟩

end GlassLine
